import Mathlib

/-
  Verification of the pippo firmware core (src/main.rs).

  The development shallowly embeds, straight from the source:
  * the UI navigation state machine (`handle_long_press`, `handle_short_press`
    and the render dispatch of the main loop);
  * the per-tick button debounce / edge-detection logic of the main loop
    (lines 202-242 of main.rs), as a step function on the explicit mutable
    state (`btn_down`, `btn_raw_last`, `btn_changed_at`, `btn_pressed_at`,
    `long_fired`), with time in milliseconds as a natural number;
  * the streamed UTF-8 accumulation loop of `get_weather` (the chunk buffer
    with carried undecoded remainder), with bytes as naturals below 256;
  * the blink animation scheduler, which is described by the specification
    but absent from the provided source file, modelled from the spec.
-/

/-! ## UI navigation state machine -/

/-- The `UiState` enum of main.rs. -/
inductive UiState where
  | Home
  | Menu
  | Settings
  | Status
  | Exit
deriving Repr, DecidableEq

/-- Embedding of `handle_long_press` (main.rs lines 322-334).  The Rust
function mutates `ui_state` through a mutable reference and receives
`option_index` by value; we return the new state. -/
def handle_long_press (ui_state : UiState) (option_index : Nat) : UiState :=
  match ui_state with
  | UiState.Home => UiState.Menu
  | UiState.Menu =>
    match option_index with
    | 0 => UiState.Settings
    | 1 => UiState.Status
    | 2 => UiState.Exit
    | _ => UiState.Menu
  | _ => UiState.Home

/-- Embedding of `handle_short_press` (main.rs lines 336-347).  Both
`ui_state` and `option_index` are mutated through references in Rust; we
return the pair.  `option_index` is a `u8`, so the increment wraps modulo
256 before the `% 3`. -/
def handle_short_press (ui_state : UiState) (option_index : Nat) :
    UiState × Nat :=
  match ui_state with
  | UiState.Menu => (UiState.Menu, (option_index + 1) % 256 % 3)
  | UiState.Settings => (UiState.Menu, 0)
  | UiState.Status => (UiState.Menu, 0)
  | UiState.Exit => (UiState.Menu, 0)
  | UiState.Home => (UiState.Home, option_index)

/-- The two debounced gestures the main loop dispatches on. -/
inductive Gesture where
  | short
  | long
deriving Repr, DecidableEq

/-- One navigation step of the main loop: a short press applies
`handle_short_press` to both components; a long press applies
`handle_long_press` to the state only (line 231 passes `option_index` by
value, so the selection is untouched). -/
def uiStep (g : Gesture) (p : UiState × Nat) : UiState × Nat :=
  match g with
  | Gesture.short => handle_short_press p.1 p.2
  | Gesture.long => (handle_long_press p.1 p.2, p.2)

/-- Startup values of the main loop: `ui_state = Home`, `option_index = 0`
(main.rs lines 181-184). -/
def uiInit : UiState × Nat := (UiState.Home, 0)

/-- The UI state reached from startup after a list of gestures (applied
from the head of the list onward). -/
def runUi : List Gesture → UiState × Nat
  | [] => uiInit
  | g :: gs => uiStep g (runUi gs)

/-- Embedding of the Menu render dispatch (main.rs lines 257-267): the
three arms pass the highlight flags `(settings, status, exit)` to
`menu_screen`; the wildcard arm is `unreachable!()`, modelled as `none`. -/
def menuDispatch (option_index : Nat) : Option (Bool × Bool × Bool) :=
  match option_index with
  | 0 => some (true, false, false)
  | 1 => some (false, true, false)
  | 2 => some (false, false, true)
  | _ => none

/-- Iterated short press in Menu, starting from selection 0. -/
def shortIter : Nat → UiState × Nat
  | 0 => (UiState.Menu, 0)
  | n + 1 => uiStep Gesture.short (shortIter n)

/-! ## Button debounce and edge detection (main loop, main.rs lines 183-242) -/

/-- The debounce constant `DEBOUNCE_MS` (main.rs line 192). -/
def DEBOUNCE_MS : Nat := 30

/-- The long-press constant `LONG_PRESS_MS` (main.rs line 193). -/
def LONG_PRESS_MS : Nat := 1600

/-- The mutable button-handling state of the main loop (main.rs lines
185-189).  Times are milliseconds as naturals (`Instant` differences only
ever compare durations). -/
structure BtnState where
  btn_down : Bool
  btn_raw_last : Bool
  btn_changed_at : Nat
  btn_pressed_at : Nat
  long_fired : Bool
deriving Repr, DecidableEq

/-- What one loop iteration did with the button: whether the debounce
window had elapsed (`stable`), and which edge blocks ran.  `longAct` is
true when `handle_long_press` was invoked, `shortAct` when
`handle_short_press` was invoked. -/
structure TickOut where
  stable : Bool
  pressedEdge : Bool
  longAct : Bool
  releasedEdge : Bool
  shortAct : Bool
deriving Repr, DecidableEq

/-- One raw sample of the loop: the level read from the pin (true =
pressed, the code reads active-low) and the value of `Instant::now()` in
milliseconds. -/
structure Tick where
  raw : Bool
  now : Nat
deriving Repr, DecidableEq

/-- One iteration of the button logic of the main loop (main.rs lines
206-242), transcribed statement by statement: the debounce block updates
`btn_raw_last`/`btn_changed_at`; `stable` compares the elapsed time with
the window; inside `if stable` run, in order, the rising-edge block, the
long-press block, and the falling-edge block, each reading the variables
as updated by the previous one. -/
def btnTick (st : BtnState) (raw : Bool) (now : Nat) : BtnState × TickOut :=
  let btn_raw_last := if raw ≠ st.btn_raw_last then raw else st.btn_raw_last
  let btn_changed_at := if raw ≠ st.btn_raw_last then now else st.btn_changed_at
  let stable := decide (DEBOUNCE_MS ≤ now - btn_changed_at)
  if stable then
    let rising := raw && !st.btn_down
    let btn_down1 := if rising then true else st.btn_down
    let btn_pressed_at := if rising then now else st.btn_pressed_at
    let long_fired1 := if rising then false else st.long_fired
    let longNow :=
      btn_down1 && !long_fired1 && decide (LONG_PRESS_MS ≤ now - btn_pressed_at)
    let long_fired2 := if longNow then true else long_fired1
    let falling := !raw && btn_down1
    let btn_down2 := if falling then false else btn_down1
    let shortNow := falling && !long_fired2
    ({ btn_down := btn_down2, btn_raw_last := btn_raw_last,
       btn_changed_at := btn_changed_at, btn_pressed_at := btn_pressed_at,
       long_fired := long_fired2 },
     { stable := true, pressedEdge := rising, longAct := longNow,
       releasedEdge := falling, shortAct := shortNow })
  else
    ({ st with btn_raw_last := btn_raw_last, btn_changed_at := btn_changed_at },
     { stable := false, pressedEdge := false, longAct := false,
       releasedEdge := false, shortAct := false })

/-- Run the loop over a list of samples, collecting the per-tick outputs
in order. -/
def runBtn (st : BtnState) : List Tick → BtnState × List TickOut
  | [] => (st, [])
  | t :: ts =>
    let p := btnTick st t.raw t.now
    let r := runBtn p.1 ts
    (r.1, p.2 :: r.2)

/-- The startup button state (main.rs lines 185-189): not pressed, both
timers at boot time. -/
def btnInit : BtnState :=
  { btn_down := false, btn_raw_last := false, btn_changed_at := 0,
    btn_pressed_at := 0, long_fired := false }

/-- Number of long-press actions in a list of tick outputs. -/
def countLong : List TickOut → Nat
  | [] => 0
  | o :: os => (if o.longAct then 1 else 0) + countLong os

/-- Number of short-press actions in a list of tick outputs. -/
def countShort : List TickOut → Nat
  | [] => 0
  | o :: os => (if o.shortAct then 1 else 0) + countShort os

/-- Number of debounced falling edges in a list of tick outputs. -/
def countReleased : List TickOut → Nat
  | [] => 0
  | o :: os => (if o.releasedEdge then 1 else 0) + countReleased os

/-- No debounced rising edge occurs anywhere in the outputs. -/
def noPressedEdge (outs : List TickOut) : Prop :=
  ∀ o ∈ outs, o.pressedEdge = false

/-- A press debounced at time 40 and held: two ticks past the threshold. -/
def heldState : BtnState :=
  { btn_down := true, btn_raw_last := true, btn_changed_at := 0,
    btn_pressed_at := 40, long_fired := false }

/-- The trace refuting claim C4 as stated: sampled every loop tick, the
raw press lasts from time 0 to its release observed at 1520 ms, i.e. the
press is released 1520 ms after the raw press and 1480 ms after the
debounced press start (`btn_pressed_at = 40`), after the 30 ms debounce
window and before the 1600 ms long-press threshold; the falling edge is
debounced at the 1640 ms tick. -/
def lateReleaseTicks : List Tick :=
  [⟨true, 0⟩, ⟨true, 40⟩, ⟨true, 1500⟩, ⟨false, 1520⟩, ⟨false, 1640⟩]

/-! ## Blink animation scheduler (modelled from the spec) -/

/-- Modelled from the spec: the fixed eyes-closed hold duration
`CLOSE_HOLD` (spec 4.3, "fixed, e.g. 100 ms").  The scheduler itself is
absent from the provided source file (it belongs to another variant of
the program), so this section follows the specification text. -/
def CLOSE_HOLD_MS : Nat := 100

/-- Modelled from the spec: lower end of the randomized eyes-open blink
interval range (spec 4.3, "e.g. 4000-7000 ms"). -/
def BLINK_MIN_MS : Nat := 4000

/-- Modelled from the spec: upper end of the randomized eyes-open blink
interval range. -/
def BLINK_MAX_MS : Nat := 7000

/-- Modelled from the spec: the `AnimationState` record of the data model
(spec 3): `eyesOpen`, `lastToggle`, and the per-cycle randomized
`blinkInterval`. -/
structure AnimState where
  eyesOpen : Bool
  lastToggle : Nat
  blinkInterval : Nat
deriving Repr, DecidableEq

/-- One animation tick as fed by the main loop: the current time and the
value the random-interval provider would return if drawn this tick. -/
structure AnimTick where
  now : Nat
  draw : Nat
deriving Repr, DecidableEq

/-- Modelled from the spec: one tick of the blink scheduler (spec 4.3).
State `Open` remains until `now - lastToggle >= blinkInterval`, then
transitions to `Closed` and resets `lastToggle`; state `Closed` remains
until `now - lastToggle >= CLOSE_HOLD`, then transitions to `Open`, draws
a new random interval (`nextInterval`, injected) and resets `lastToggle`.
The returned boolean reports whether this tick redrew the face (exactly
the transitions redraw). -/
def animTick (st : AnimState) (now : Nat) (nextInterval : Nat) :
    AnimState × Bool :=
  if st.eyesOpen then
    if st.blinkInterval ≤ now - st.lastToggle then
      ({ eyesOpen := false, lastToggle := now,
         blinkInterval := st.blinkInterval }, true)
    else (st, false)
  else
    if CLOSE_HOLD_MS ≤ now - st.lastToggle then
      ({ eyesOpen := true, lastToggle := now, blinkInterval := nextInterval },
       true)
    else (st, false)

/-- Run the blink scheduler over a list of ticks, collecting the per-tick
redraw flags. -/
def runAnim (st : AnimState) : List AnimTick → AnimState × List Bool
  | [] => (st, [])
  | t :: ts =>
    let p := animTick st t.now t.draw
    let r := runAnim p.1 ts
    (r.1, p.2 :: r.2)

/-! ## Streamed UTF-8 accumulation in get_weather (main.rs lines 571-613) -/

/-- Whether a byte is a UTF-8 continuation byte (`0x80..=0xBF`). -/
def contB (b : Nat) : Bool := 128 ≤ b && b < 192

/-- Admissible first continuation byte of a 3-byte sequence, given the
lead byte: `0xE0` requires `0xA0..=0xBF`, `0xED` requires `0x80..=0x9F`
(excluding surrogates), other leads take any continuation byte. -/
def cont1Ok3 (b b1 : Nat) : Bool :=
  if b = 224 then decide (160 ≤ b1) && decide (b1 < 192)
  else if b = 237 then decide (128 ≤ b1) && decide (b1 < 160)
  else contB b1

/-- Admissible first continuation byte of a 4-byte sequence, given the
lead byte: `0xF0` requires `0x90..=0xBF`, `0xF4` requires `0x80..=0x8F`
(capping at `U+10FFFF`), other leads take any continuation byte. -/
def cont1Ok4 (b b1 : Nat) : Bool :=
  if b = 240 then decide (144 ≤ b1) && decide (b1 < 192)
  else if b = 244 then decide (128 ≤ b1) && decide (b1 < 144)
  else contB b1

/-- Length of the single well-formed UTF-8 character at the front of a
byte list, or `none` when the front is not a complete well-formed
character (ill-formed or truncated).  This is the per-character core of
`core::str::from_utf8`, which `get_weather` calls on its buffer: ASCII,
2-byte leads `0xC2..=0xDF`, 3-byte leads `0xE0..=0xEF` (with the `0xE0`
overlong and `0xED` surrogate restrictions on the first continuation),
4-byte leads `0xF0..=0xF4` (with the `0xF0` and `0xF4` range
restrictions). -/
def utf8CharLen : List Nat → Option Nat
  | [] => none
  | b :: rest =>
    if b < 128 then some 1
    else if b < 194 then none
    else if b < 224 then
      match rest with
      | b1 :: _ => if contB b1 then some 2 else none
      | [] => none
    else if b < 240 then
      match rest with
      | b1 :: b2 :: _ => if cont1Ok3 b b1 && contB b2 then some 3 else none
      | _ => none
    else if b < 245 then
      match rest with
      | b1 :: b2 :: b3 :: _ =>
        if cont1Ok4 b b1 && contB b2 && contB b3 then some 4 else none
      | _ => none
    else none

/-- Fuel-driven accumulation of `utf8CharLen` over a byte list; the fuel
only needs to reach the list length (each character consumes at least one
byte). -/
def utf8ValidUpToAux : Nat → List Nat → Nat
  | 0, _ => 0
  | fuel + 1, l =>
    match utf8CharLen l with
    | none => 0
    | some k => k + utf8ValidUpToAux fuel (l.drop k)

/-- The number of initial bytes of `l` forming well-formed UTF-8: the
`valid_up_to` of `core::str::Utf8Error`, and `l.length` exactly when the
whole list is well-formed UTF-8 (`from_utf8` returns `Ok`). -/
def utf8ValidUpTo (l : List Nat) : Nat :=
  utf8ValidUpToAux l.length l

/-- `c` is the UTF-8 encoding of one character. -/
def IsCharEnc (c : List Nat) : Prop :=
  utf8CharLen c = some c.length

/-- `p` is a (possibly empty) proper initial part of the encoding of one
character: the shape of the undecoded remainder `get_weather` carries
between reads. -/
def Frag (p : List Nat) : Prop :=
  p = [] ∨ ∃ s, s ≠ [] ∧ IsCharEnc (p ++ s)

/-- One iteration of the accumulation loop of `get_weather` (main.rs lines
583-606) at the logical level: the state is the carried undecoded
remainder (the first `offset` bytes of `buf`) and the accumulated
`json_response`; a read appends `chunk` after the remainder, the valid
prefix is pushed onto the accumulator, and the rest is carried
(`buf.copy_within(valid_up_to.., 0)`). -/
def chunkStep (st : List Nat × List Nat) (chunk : List Nat) :
    List Nat × List Nat :=
  let data := st.1 ++ chunk
  let v := utf8ValidUpTo data
  if v = data.length then ([], st.2 ++ data)
  else (data.drop v, st.2 ++ data.take v)

/-- The accumulated response body of `get_weather` over the successful
reads of the stream (the loop starts with an empty buffer and an empty
`json_response` and breaks on the zero-length read, returning the
accumulator and dropping any carried remainder). -/
def get_weather_body (chunks : List (List Nat)) : List Nat :=
  (chunks.foldl chunkStep ([], [])).2

/-- Embedding of the status dispatch of `get_weather` (main.rs lines
575-613): a status in `200..=299` runs the accumulation loop and returns
`Ok` with the body; any other status returns the `bail!` error, modelled
as `none`. -/
def get_weather (status : Nat) (chunks : List (List Nat)) :
    Option (List Nat) :=
  if 200 ≤ status ∧ status ≤ 299 then some (get_weather_body chunks)
  else none

/-! ## Theorems -/

theorem shortIter_eq (n : Nat) : shortIter n = (UiState.Menu, n % 3) := by
  induction n with
  | zero => rfl
  | succ n ih =>
    have h3 : n % 3 < 3 := Nat.mod_lt _ (by omega)
    simp [shortIter, ih, uiStep, handle_short_press]
    omega

/-- Claim C1: for every UI state and selection, a short press behaves as:
in Menu the state is unchanged and the selection becomes
`(selection + 1) mod 3`; in Settings, Status, or Exit the state becomes
Menu and the selection is reset to 0; in Home both state and selection are
unchanged; repeated short presses in Menu cycle the selection
`0,1,2,0,1,2,...` with no skips. -/
theorem short_press_spec :
    (∀ i : Nat, i < 3 →
      handle_short_press UiState.Menu i = (UiState.Menu, (i + 1) % 3)) ∧
    (∀ i : Nat, handle_short_press UiState.Settings i = (UiState.Menu, 0)) ∧
    (∀ i : Nat, handle_short_press UiState.Status i = (UiState.Menu, 0)) ∧
    (∀ i : Nat, handle_short_press UiState.Exit i = (UiState.Menu, 0)) ∧
    (∀ i : Nat, handle_short_press UiState.Home i = (UiState.Home, i)) ∧
    (∀ n : Nat, shortIter n = (UiState.Menu, n % 3)) := by
  refine ⟨?_, ?_, ?_, ?_, ?_, shortIter_eq⟩ <;>
    intro i <;> simp [handle_short_press]
  intro hi
  omega

/-- Witness for `short_press_spec` at concrete selections, including the
`0,1,2,0` cycle. -/
theorem short_press_spec_witness :
    handle_short_press UiState.Menu 2 = (UiState.Menu, 0) ∧
    shortIter 4 = (UiState.Menu, 1) :=
  ⟨short_press_spec.1 2 (by decide), short_press_spec.2.2.2.2.2 4⟩

/-- Claim C2: for every selection, a long press sends Home to Menu; Menu
with selection 0, 1, 2 to Settings, Status, Exit respectively; and each of
Settings, Status, Exit back to Home. -/
theorem long_press_spec :
    ∀ i : Nat,
      handle_long_press UiState.Home i = UiState.Menu ∧
      handle_long_press UiState.Menu 0 = UiState.Settings ∧
      handle_long_press UiState.Menu 1 = UiState.Status ∧
      handle_long_press UiState.Menu 2 = UiState.Exit ∧
      handle_long_press UiState.Settings i = UiState.Home ∧
      handle_long_press UiState.Status i = UiState.Home ∧
      handle_long_press UiState.Exit i = UiState.Home := by
  intro i
  refine ⟨rfl, rfl, rfl, rfl, ?_, ?_, ?_⟩ <;> rfl

/-- Claim C10: a long press never changes the selection index (the main
loop passes `option_index` to `handle_long_press` by value and does not
touch it), so entering Menu from Home via long press keeps the previously
selected entry. -/
theorem long_press_keeps_selection :
    ∀ (s : UiState) (i : Nat),
      (uiStep Gesture.long (s, i)).2 = i ∧
      uiStep Gesture.long (UiState.Home, i) = (UiState.Menu, i) := by
  intro s i
  exact ⟨rfl, rfl⟩

/-- Claim C7: from startup, after any sequence of gestures the selection
index stays in `{0, 1, 2}`, hence the `unreachable!()` arm of the Menu
render dispatch never executes. -/
theorem selection_in_range :
    ∀ gs : List Gesture,
      (runUi gs).2 < 3 ∧ (menuDispatch (runUi gs).2).isSome = true := by
  have hlt : ∀ gs : List Gesture, (runUi gs).2 < 3 := by
    intro gs
    induction gs with
    | nil => decide
    | cons g gs ih =>
      cases g with
      | long => simpa [runUi, uiStep] using ih
      | short =>
        show (handle_short_press (runUi gs).1 (runUi gs).2).2 < 3
        cases h : (runUi gs).1 <;> simp [handle_short_press] <;> omega
  intro gs
  have h := hlt gs
  refine ⟨h, ?_⟩
  rcases hke : (runUi gs).2 with _ | (_ | (_ | n)) <;> first | rfl | omega

/-- A long-press action at a tick leaves the `long_fired` flag set. -/
theorem btnTick_longAct_sets_flag (st : BtnState) (raw : Bool) (now : Nat)
    (h : (btnTick st raw now).2.longAct = true) :
    (btnTick st raw now).1.long_fired = true := by
  simp only [btnTick] at h ⊢
  split_ifs at h ⊢ <;> simp_all

/-- Per-tick characterization of the long-press action: it runs exactly
when the sample is debounced-stable, the debounced press is in progress,
the once-per-press flag is clear, and the time held has reached the
threshold. -/
theorem btnTick_longAct_iff (st : BtnState) (raw : Bool) (now : Nat) :
    (btnTick st raw now).2.longAct = true ↔
      (raw = st.btn_raw_last ∧ DEBOUNCE_MS ≤ now - st.btn_changed_at ∧
       st.btn_down = true ∧ st.long_fired = false ∧
       LONG_PRESS_MS ≤ now - st.btn_pressed_at) := by
  simp only [btnTick]
  split_ifs with h1 h2 h3 h4 h5 h6 <;>
    simp_all [DEBOUNCE_MS, LONG_PRESS_MS]
  tauto

/-- The once-per-press flag, when set, is cleared exactly by a debounced
rising edge. -/
theorem btnTick_flag_reset_iff (st : BtnState) (raw : Bool) (now : Nat)
    (h : st.long_fired = true) :
    ((btnTick st raw now).1.long_fired = false ↔
      (btnTick st raw now).2.pressedEdge = true) := by
  simp only [btnTick]
  split_ifs <;> simp_all [DEBOUNCE_MS, LONG_PRESS_MS]

/-- While the flag is set and no new debounced rising edge occurs, a tick
performs no long-press action and no short-press action, and the flag
stays set. -/
theorem btnTick_flag_frozen (st : BtnState) (raw : Bool) (now : Nat)
    (hf : st.long_fired = true)
    (hp : (btnTick st raw now).2.pressedEdge = false) :
    (btnTick st raw now).2.longAct = false ∧
    (btnTick st raw now).2.shortAct = false ∧
    (btnTick st raw now).1.long_fired = true := by
  simp only [btnTick] at hp ⊢
  split_ifs at hp ⊢ <;> simp_all

/-- While the debounced press is in progress a tick never reports a rising
edge, and the press start time is unchanged. -/
theorem btnTick_down_no_rise (st : BtnState) (raw : Bool) (now : Nat)
    (hd : st.btn_down = true) :
    (btnTick st raw now).2.pressedEdge = false ∧
    (btnTick st raw now).1.btn_pressed_at = st.btn_pressed_at := by
  simp only [btnTick]
  split_ifs <;> simp_all

/-- While the raw level stays pressed, the debounced press persists. -/
theorem btnTick_down_held (st : BtnState) (raw : Bool) (now : Nat)
    (hd : st.btn_down = true) (hr : raw = true) :
    (btnTick st raw now).1.btn_down = true ∧
    (btnTick st raw now).2.releasedEdge = false := by
  simp only [btnTick]
  split_ifs <;> simp_all

/-- With no debounced press in progress and no rising edge, a tick does
nothing: no actions, no falling edge, and the press bookkeeping is
unchanged. -/
theorem btnTick_idle (st : BtnState) (raw : Bool) (now : Nat)
    (hd : st.btn_down = false)
    (hp : (btnTick st raw now).2.pressedEdge = false) :
    (btnTick st raw now).1.btn_down = false ∧
    (btnTick st raw now).1.long_fired = st.long_fired ∧
    (btnTick st raw now).1.btn_pressed_at = st.btn_pressed_at ∧
    (btnTick st raw now).2.longAct = false ∧
    (btnTick st raw now).2.releasedEdge = false ∧
    (btnTick st raw now).2.shortAct = false := by
  simp only [btnTick] at hp ⊢
  split_ifs at hp ⊢ <;> simp_all

/-- A tick of a debounced press whose hold time is still below the
threshold: no rising edge, no long-press action, flag stays clear, press
start unchanged; it either detects the falling edge (ending the press with
exactly one short-press action) or keeps the press going. -/
theorem btnTick_below_threshold (st : BtnState) (raw : Bool) (now : Nat)
    (hd : st.btn_down = true) (hf : st.long_fired = false)
    (ht : now < st.btn_pressed_at + LONG_PRESS_MS) :
    (btnTick st raw now).2.pressedEdge = false ∧
    (btnTick st raw now).2.longAct = false ∧
    (btnTick st raw now).1.long_fired = false ∧
    (btnTick st raw now).1.btn_pressed_at = st.btn_pressed_at ∧
    (btnTick st raw now).2.shortAct = (btnTick st raw now).2.releasedEdge ∧
    (btnTick st raw now).1.btn_down = !(btnTick st raw now).2.releasedEdge := by
  simp only [btnTick]
  split_ifs <;> simp_all [LONG_PRESS_MS] <;> omega

theorem noPressedEdge_cons {o : TickOut} {os : List TickOut} :
    noPressedEdge (o :: os) ↔ o.pressedEdge = false ∧ noPressedEdge os := by
  simp [noPressedEdge]

theorem runBtn_cons (st : BtnState) (t : Tick) (ts : List Tick) :
    runBtn st (t :: ts) =
      ((runBtn (btnTick st t.raw t.now).1 ts).1,
       (btnTick st t.raw t.now).2 :: (runBtn (btnTick st t.raw t.now).1 ts).2) :=
  rfl

/-- Once the once-per-press flag is set, as long as no new debounced
rising edge occurs the run performs no long-press action and no
short-press action, and the flag stays set. -/
theorem runBtn_flag_inv (ticks : List Tick) :
    ∀ st : BtnState, st.long_fired = true →
      noPressedEdge (runBtn st ticks).2 →
      countLong (runBtn st ticks).2 = 0 ∧ countShort (runBtn st ticks).2 = 0 ∧
      (runBtn st ticks).1.long_fired = true := by
  induction ticks with
  | nil =>
    intro st hf _
    exact ⟨rfl, rfl, hf⟩
  | cons t ts ih =>
    intro st hf hnp
    rw [runBtn_cons] at hnp ⊢
    rw [noPressedEdge_cons] at hnp
    have hfro := btnTick_flag_frozen st t.raw t.now hf hnp.1
    have hrest := ih _ hfro.2.2 hnp.2
    refine ⟨?_, ?_, hrest.2.2⟩
    · simp [countLong, hfro.1, hrest.1]
    · simp [countShort, hfro.2.1, hrest.2.1]

/-- With no debounced rising edge anywhere in a run, the long-press action
is performed at most once. -/
theorem runBtn_long_atMostOne (ticks : List Tick) :
    ∀ st : BtnState, noPressedEdge (runBtn st ticks).2 →
      countLong (runBtn st ticks).2 ≤ 1 := by
  induction ticks with
  | nil => intro st _; simp [runBtn, countLong]
  | cons t ts ih =>
    intro st hnp
    rw [runBtn_cons] at hnp ⊢
    rw [noPressedEdge_cons] at hnp
    by_cases hl : (btnTick st t.raw t.now).2.longAct = true
    · have hset := btnTick_longAct_sets_flag st t.raw t.now hl
      have hrest := runBtn_flag_inv ts _ hset hnp.2
      simp [countLong, hl, hrest.1]
    · have hrest := ih _ hnp.2
      simp only [Bool.not_eq_true] at hl
      simpa [countLong, hl] using hrest

/-- While the raw level stays pressed, a debounced press in progress never
produces a rising edge and the debounced state stays pressed. -/
theorem runBtn_held (ticks : List Tick) :
    ∀ st : BtnState, st.btn_down = true → (∀ t ∈ ticks, t.raw = true) →
      noPressedEdge (runBtn st ticks).2 ∧ (runBtn st ticks).1.btn_down = true := by
  induction ticks with
  | nil =>
    intro st hd _
    refine ⟨?_, hd⟩
    simp [runBtn, noPressedEdge]
  | cons t ts ih =>
    intro st hd hr
    have hrt : t.raw = true := hr t (by simp)
    have h1 := btnTick_down_no_rise st t.raw t.now hd
    have h2 := btnTick_down_held st t.raw t.now hd hrt
    have hrest := ih _ h2.1 (fun u hu => hr u (by simp [hu]))
    rw [runBtn_cons]
    exact ⟨noPressedEdge_cons.mpr ⟨h1.1, hrest.1⟩, hrest.2⟩

/-- A held tick that does not perform the long-press action leaves the
whole press bookkeeping untouched. -/
theorem btnTick_held_no_fire (st : BtnState) (raw : Bool) (now : Nat)
    (hd : st.btn_down = true) (hf : st.long_fired = false)
    (hrl : st.btn_raw_last = true) (hr : raw = true)
    (hnl : (btnTick st raw now).2.longAct = false) :
    (btnTick st raw now).1.btn_down = true ∧
    (btnTick st raw now).1.long_fired = false ∧
    (btnTick st raw now).1.btn_raw_last = true ∧
    (btnTick st raw now).1.btn_changed_at = st.btn_changed_at ∧
    (btnTick st raw now).1.btn_pressed_at = st.btn_pressed_at := by
  simp only [btnTick] at hnl ⊢
  split_ifs at hnl ⊢ <;> simp_all [DEBOUNCE_MS, LONG_PRESS_MS]

/-- If a debounced press is in progress with the flag clear and the button
stays held, then as soon as some tick is past both the debounce window and
the long-press threshold, the long-press action is performed exactly
once. -/
theorem runBtn_long_fires (ticks : List Tick) :
    ∀ st : BtnState, st.btn_down = true → st.long_fired = false →
      st.btn_raw_last = true → (∀ t ∈ ticks, t.raw = true) →
      (∃ t ∈ ticks, st.btn_changed_at + DEBOUNCE_MS ≤ t.now ∧
         st.btn_pressed_at + LONG_PRESS_MS ≤ t.now) →
      countLong (runBtn st ticks).2 = 1 := by
  induction ticks with
  | nil =>
    intro st _ _ _ _ hex
    simp at hex
  | cons t ts ih =>
    intro st hd hf hrl hr hex
    have hrt : t.raw = true := hr t (by simp)
    rw [runBtn_cons]
    by_cases hl : (btnTick st t.raw t.now).2.longAct = true
    · have hset := btnTick_longAct_sets_flag st t.raw t.now hl
      have hdown := (btnTick_down_held st t.raw t.now hd hrt).1
      have hheld := runBtn_held ts _ hdown (fun u hu => hr u (by simp [hu]))
      have hrest := runBtn_flag_inv ts _ hset hheld.1
      simp [countLong, hl, hrest.1]
    · have hnl : (btnTick st t.raw t.now).2.longAct = false := by
        simpa using hl
      have hpre := btnTick_held_no_fire st t.raw t.now hd hf hrl hrt hnl
      have hhead : ¬ (st.btn_changed_at + DEBOUNCE_MS ≤ t.now ∧
          st.btn_pressed_at + LONG_PRESS_MS ≤ t.now) := by
        intro hc
        have hfire : (btnTick st t.raw t.now).2.longAct = true := by
          rw [btnTick_longAct_iff]
          refine ⟨by rw [hrt, hrl], by omega, hd, hf, by omega⟩
        rw [hfire] at hnl
        exact Bool.noConfusion hnl
      have hex2 : ∃ u ∈ ts,
          (btnTick st t.raw t.now).1.btn_changed_at + DEBOUNCE_MS ≤ u.now ∧
          (btnTick st t.raw t.now).1.btn_pressed_at + LONG_PRESS_MS ≤ u.now := by
        rcases hex with ⟨u, hu, hc⟩
        rcases List.mem_cons.mp hu with rfl | hu2
        · exact absurd hc hhead
        · exact ⟨u, hu2, by rw [hpre.2.2.2.1, hpre.2.2.2.2]; exact hc⟩
      have hrest := ih _ hpre.1 hpre.2.1 hpre.2.2.1
        (fun u hu => hr u (by simp [hu])) hex2
      simp [countLong, hnl, hrest]

/-- With no debounced press in progress and no rising edge, a run
performs no actions at all. -/
theorem runBtn_idle (ticks : List Tick) :
    ∀ st : BtnState, st.btn_down = false →
      noPressedEdge (runBtn st ticks).2 →
      countLong (runBtn st ticks).2 = 0 ∧ countShort (runBtn st ticks).2 = 0 ∧
      countReleased (runBtn st ticks).2 = 0 := by
  induction ticks with
  | nil =>
    intro st _ _
    exact ⟨rfl, rfl, rfl⟩
  | cons t ts ih =>
    intro st hd hnp
    rw [runBtn_cons] at hnp ⊢
    rw [noPressedEdge_cons] at hnp
    have hi := btnTick_idle st t.raw t.now hd hnp.1
    have hrest := ih _ hi.1 hnp.2
    refine ⟨?_, ?_, ?_⟩
    · simp [countLong, hi.2.2.2.1, hrest.1]
    · simp [countShort, hi.2.2.2.2.2, hrest.2.1]
    · simp [countReleased, hi.2.2.2.2.1, hrest.2.2]

/-- A debounced press whose every tick stays below the long-press
threshold, with no new rising edge: no long-press action is ever
performed, and a short-press action is performed exactly at the (at most
one) debounced falling edge. -/
theorem runBtn_short_press (ticks : List Tick) :
    ∀ st : BtnState, st.btn_down = true → st.long_fired = false →
      noPressedEdge (runBtn st ticks).2 →
      (∀ t ∈ ticks, t.now < st.btn_pressed_at + LONG_PRESS_MS) →
      countLong (runBtn st ticks).2 = 0 ∧
      countShort (runBtn st ticks).2 = countReleased (runBtn st ticks).2 ∧
      countReleased (runBtn st ticks).2 ≤ 1 := by
  induction ticks with
  | nil =>
    intro st _ _ _ _
    exact ⟨rfl, rfl, by simp [runBtn, countReleased]⟩
  | cons t ts ih =>
    intro st hd hf hnp ht
    rw [runBtn_cons] at hnp ⊢
    rw [noPressedEdge_cons] at hnp
    have hbt := btnTick_below_threshold st t.raw t.now hd hf (ht t (by simp))
    by_cases hrel : (btnTick st t.raw t.now).2.releasedEdge = true
    · have hdown : (btnTick st t.raw t.now).1.btn_down = false := by
        rw [hbt.2.2.2.2.2, hrel]
        rfl
      have hrest := runBtn_idle ts _ hdown hnp.2
      have hsh : (btnTick st t.raw t.now).2.shortAct = true := by
        rw [hbt.2.2.2.2.1, hrel]
      refine ⟨?_, ?_, ?_⟩
      · simp [countLong, hbt.2.1, hrest.1]
      · simp [countShort, countReleased, hsh, hrel, hrest.2.1, hrest.2.2]
      · simp [countReleased, hrel, hrest.2.2]
    · have hrelf : (btnTick st t.raw t.now).2.releasedEdge = false := by
        simpa using hrel
      have hdown : (btnTick st t.raw t.now).1.btn_down = true := by
        rw [hbt.2.2.2.2.2, hrelf]
        rfl
      have hsh : (btnTick st t.raw t.now).2.shortAct = false := by
        rw [hbt.2.2.2.2.1, hrelf]
      have hrest := ih _ hdown hbt.2.2.1 hnp.2
        (fun u hu => by rw [hbt.2.2.2.1]; exact ht u (by simp [hu]))
      refine ⟨?_, ?_, ?_⟩
      · simp [countLong, hbt.2.1, hrest.1]
      · simp [countShort, countReleased, hsh, hrelf, hrest.2.1]
      · simp [countReleased, hrelf, hrest.2.2]

/-- A tick at which the debounce window has not elapsed skips the whole
edge-detection block: the debounced state, press bookkeeping and flag are
unchanged and no edge or action is produced. -/
theorem btnTick_unstable (st : BtnState) (raw : Bool) (now : Nat)
    (h : (btnTick st raw now).2.stable = false) :
    (btnTick st raw now).1.btn_down = st.btn_down ∧
    (btnTick st raw now).1.btn_pressed_at = st.btn_pressed_at ∧
    (btnTick st raw now).1.long_fired = st.long_fired ∧
    (btnTick st raw now).2.pressedEdge = false ∧
    (btnTick st raw now).2.longAct = false ∧
    (btnTick st raw now).2.releasedEdge = false ∧
    (btnTick st raw now).2.shortAct = false := by
  simp only [btnTick] at h ⊢
  split_ifs at h ⊢ <;> simp_all

/-- At least one falling edge makes the released count positive. -/
theorem countReleased_pos {outs : List TickOut}
    (h : ∃ o ∈ outs, o.releasedEdge = true) : 1 ≤ countReleased outs := by
  induction outs with
  | nil => simp at h
  | cons o os ih =>
    rcases h with ⟨u, hu, hrel⟩
    rcases List.mem_cons.mp hu with rfl | hu2
    · simp [countReleased, hrel]
    · have := ih ⟨u, hu2, hrel⟩
      simp [countReleased]
      omega

/-- Claim C5: on a raw-input sample sequence in which no level is ever
observed stable for the 30 ms debounce window (every tick of the run is
below the window), the debounced button state `btn_down` never changes and
no press, release, long-press or short-press action is performed. -/
theorem debounce_antibounce :
    ∀ (st : BtnState) (ticks : List Tick),
      (∀ o ∈ (runBtn st ticks).2, o.stable = false) →
      (runBtn st ticks).1.btn_down = st.btn_down ∧
      (runBtn st ticks).1.btn_pressed_at = st.btn_pressed_at ∧
      (runBtn st ticks).1.long_fired = st.long_fired ∧
      (∀ o ∈ (runBtn st ticks).2, o.pressedEdge = false ∧ o.longAct = false ∧
        o.releasedEdge = false ∧ o.shortAct = false) := by
  intro st ticks
  induction ticks generalizing st with
  | nil =>
    intro _
    refine ⟨rfl, rfl, rfl, ?_⟩
    simp [runBtn]
  | cons t ts ih =>
    intro h
    rw [runBtn_cons] at h ⊢
    have hh : (btnTick st t.raw t.now).2.stable = false := h _ (by simp)
    have hu := btnTick_unstable st t.raw t.now hh
    have hrest := ih (btnTick st t.raw t.now).1
      (fun o ho => h o (List.mem_cons_of_mem _ ho))
    refine ⟨by rw [hrest.1, hu.1], by rw [hrest.2.1, hu.2.1],
      by rw [hrest.2.2.1, hu.2.2.1], ?_⟩
    intro o ho
    rcases List.mem_cons.mp ho with rfl | ho2
    · exact ⟨hu.2.2.2.1, hu.2.2.2.2.1, hu.2.2.2.2.2.1, hu.2.2.2.2.2.2⟩
    · exact hrest.2.2.2 o ho2

/-- Witness for `debounce_antibounce`: the bouncing scenario of the spec
(raw goes true, false, true, true, true at 10 ms spacing, never stable for
30 ms) leaves the debounced state untouched from startup. -/
theorem debounce_antibounce_witness :
    (runBtn btnInit
        [⟨true, 0⟩, ⟨false, 10⟩, ⟨true, 20⟩, ⟨true, 30⟩, ⟨true, 40⟩]).1.btn_down
      = false :=
  (debounce_antibounce btnInit
    [⟨true, 0⟩, ⟨false, 10⟩, ⟨true, 20⟩, ⟨true, 30⟩, ⟨true, 40⟩]
    (by decide)).1

/-- Claim C3: the long-press action is performed at most once between
debounced rising edges; if a debounced press persists (raw stays pressed)
it is performed exactly once as soon as a tick reaches the 1600 ms
threshold; a tick performs it exactly when the sample is stable, the
debounced press is in progress, the once-per-press flag is clear and the
held time has reached the threshold; and once set, the flag is cleared
exactly by the next debounced rising edge. -/
theorem long_press_once :
    (∀ (st : BtnState) (ticks : List Tick),
        noPressedEdge (runBtn st ticks).2 →
        countLong (runBtn st ticks).2 ≤ 1) ∧
    (∀ (st : BtnState) (ticks : List Tick),
        st.btn_down = true → st.long_fired = false → st.btn_raw_last = true →
        (∀ t ∈ ticks, t.raw = true) →
        (∃ t ∈ ticks, st.btn_changed_at + DEBOUNCE_MS ≤ t.now ∧
           st.btn_pressed_at + LONG_PRESS_MS ≤ t.now) →
        countLong (runBtn st ticks).2 = 1) ∧
    (∀ (st : BtnState) (raw : Bool) (now : Nat),
        (btnTick st raw now).2.longAct = true ↔
          (raw = st.btn_raw_last ∧ DEBOUNCE_MS ≤ now - st.btn_changed_at ∧
           st.btn_down = true ∧ st.long_fired = false ∧
           LONG_PRESS_MS ≤ now - st.btn_pressed_at)) ∧
    (∀ (st : BtnState) (raw : Bool) (now : Nat), st.long_fired = true →
        ((btnTick st raw now).1.long_fired = false ↔
          (btnTick st raw now).2.pressedEdge = true)) :=
  ⟨fun st ticks => runBtn_long_atMostOne ticks st,
   fun st ticks => runBtn_long_fires ticks st,
   btnTick_longAct_iff,
   btnTick_flag_reset_iff⟩

/-- Witness for `long_press_once`: a press held through the threshold
fires the long-press action exactly once over the remaining ticks. -/
theorem long_press_once_witness :
    countLong (runBtn heldState [⟨true, 1640⟩, ⟨true, 1660⟩]).2 = 1 :=
  long_press_once.2.1 heldState [⟨true, 1640⟩, ⟨true, 1660⟩]
    rfl rfl rfl (by decide) (by decide)

/-- Counterexample to claim C4 as stated: on `lateReleaseTicks` the press
is released before the long-press threshold (raw release sampled at
1520 ms < 1600 ms after the raw press at 0, and 1480 ms after the
debounced press start 40) and the release registers as a debounced falling
edge, yet the run performs one long-press action and no short-press
action: the long-press check runs before the falling-edge check at the
tick that debounces the release, and by then `now - btn_pressed_at` has
reached the threshold. -/
theorem short_press_claim_counterexample :
    (runBtn btnInit lateReleaseTicks).1.btn_pressed_at = 40 ∧
    countReleased (runBtn btnInit lateReleaseTicks).2 = 1 ∧
    countLong (runBtn btnInit lateReleaseTicks).2 = 1 ∧
    countShort (runBtn btnInit lateReleaseTicks).2 = 0 := by
  decide

/-- Claim C4 as amended: if the long-press action fired during the press,
the rest of the press (and in particular its release) performs no
short-press action; and if every tick of the press stays below the
long-press threshold (so the debounced falling edge is processed before
the held time reaches 1600 ms), no long-press action is performed and the
release performs exactly one short-press action. -/
theorem short_press_exactly_once :
    (∀ (st : BtnState) (ticks : List Tick),
        st.long_fired = true → noPressedEdge (runBtn st ticks).2 →
        countShort (runBtn st ticks).2 = 0) ∧
    (∀ (st : BtnState) (ticks : List Tick),
        st.btn_down = true → st.long_fired = false →
        noPressedEdge (runBtn st ticks).2 →
        (∀ t ∈ ticks, t.now < st.btn_pressed_at + LONG_PRESS_MS) →
        (∃ o ∈ (runBtn st ticks).2, o.releasedEdge = true) →
        countShort (runBtn st ticks).2 = 1 ∧
        countLong (runBtn st ticks).2 = 0) := by
  constructor
  · intro st ticks hf hnp
    exact (runBtn_flag_inv ticks st hf hnp).2.1
  · intro st ticks hd hf hnp ht hex
    have h := runBtn_short_press ticks st hd hf hnp ht
    have hpos := countReleased_pos hex
    exact ⟨by omega, h.1⟩

/-- Witness for `short_press_exactly_once`: a press debounced at 40 ms and
released before the threshold performs exactly one short-press action and
no long-press action. -/
theorem short_press_exactly_once_witness :
    countShort (runBtn heldState [⟨true, 100⟩, ⟨false, 120⟩, ⟨false, 160⟩]).2 = 1 ∧
    countLong (runBtn heldState [⟨true, 100⟩, ⟨false, 120⟩, ⟨false, 160⟩]).2 = 0 :=
  short_press_exactly_once.2 heldState [⟨true, 100⟩, ⟨false, 120⟩, ⟨false, 160⟩]
    rfl rfl (by unfold noPressedEdge; decide) (by decide) (by decide)

/-- Claim C6 (modelled from the spec, the scheduler being absent from the
provided source): a tick redraws exactly when the open/closed state
transitions (one redraw per transition, none otherwise); the eyes stay
closed exactly until the fixed hold constant has elapsed, so with a tick
at `lastToggle + CLOSE_HOLD` the closed duration is exactly the constant;
the eyes stay open exactly until the randomized interval has elapsed; and
along any run whose drawn intervals lie in the configured range, the
interval governing the open duration stays in that range. -/
theorem blink_scheduler_spec :
    (∀ (st : AnimState) (now iv : Nat),
        (animTick st now iv).2 = true ↔
          (animTick st now iv).1.eyesOpen ≠ st.eyesOpen) ∧
    (∀ (st : AnimState) (now iv : Nat), st.eyesOpen = false →
        ((animTick st now iv).2 = true ↔ st.lastToggle + CLOSE_HOLD_MS ≤ now)) ∧
    (∀ (st : AnimState) (now iv : Nat), st.eyesOpen = true →
        0 < st.blinkInterval →
        ((animTick st now iv).2 = true ↔
          st.lastToggle + st.blinkInterval ≤ now)) ∧
    (∀ (ticks : List AnimTick) (st : AnimState),
        BLINK_MIN_MS ≤ st.blinkInterval → st.blinkInterval ≤ BLINK_MAX_MS →
        (∀ t ∈ ticks, BLINK_MIN_MS ≤ t.draw ∧ t.draw ≤ BLINK_MAX_MS) →
        BLINK_MIN_MS ≤ (runAnim st ticks).1.blinkInterval ∧
        (runAnim st ticks).1.blinkInterval ≤ BLINK_MAX_MS) := by
  refine ⟨?_, ?_, ?_, ?_⟩
  · intro st now iv
    simp only [animTick]
    split_ifs <;> simp_all
  · intro st now iv h
    simp only [animTick, h]
    split_ifs with h1 <;> simp_all [CLOSE_HOLD_MS] <;> omega
  · intro st now iv h hpos
    simp only [animTick, h]
    split_ifs with h1 <;> simp_all <;> omega
  · intro ticks
    induction ticks with
    | nil =>
      intro st h1 h2 _
      exact ⟨h1, h2⟩
    | cons t ts ih =>
      intro st h1 h2 hr
      have hd := hr t (by simp)
      have hstep : BLINK_MIN_MS ≤ (animTick st t.now t.draw).1.blinkInterval ∧
          (animTick st t.now t.draw).1.blinkInterval ≤ BLINK_MAX_MS := by
        simp only [animTick]
        split_ifs <;> simp_all
      exact ih _ hstep.1 hstep.2 (fun u hu => hr u (by simp [hu]))

/-- Witness for `blink_scheduler_spec`: with eyes closed since time 0, the
tick at exactly 100 ms reopens them and redraws. -/
theorem blink_scheduler_spec_witness :
    (animTick { eyesOpen := false, lastToggle := 0, blinkInterval := 5000 }
      100 5000).2 = true :=
  (blink_scheduler_spec.2.1
    { eyesOpen := false, lastToggle := 0, blinkInterval := 5000 }
    100 5000 rfl).mpr (by decide)

theorem utf8CharLen_bounds {l : List Nat} {k : Nat}
    (h : utf8CharLen l = some k) : 1 ≤ k ∧ k ≤ l.length := by
  match l with
  | [] => simp [utf8CharLen] at h
  | b :: rest =>
    rcases rest with _ | ⟨b1, _ | ⟨b2, _ | ⟨b3, rest3⟩⟩⟩ <;>
      · simp only [utf8CharLen] at h
        split_ifs at h <;> simp_all <;> omega

theorem utf8CharLen_append {l : List Nat} {k : Nat} (r : List Nat)
    (h : utf8CharLen l = some k) : utf8CharLen (l ++ r) = some k := by
  match l with
  | [] => simp [utf8CharLen] at h
  | b :: rest =>
    rw [List.cons_append]
    simp only [utf8CharLen] at h ⊢
    by_cases h0 : b < 128
    · simpa [h0] using h
    · by_cases h1 : b < 194
      · simp [h0, h1] at h
      · by_cases h2 : b < 224
        · simp only [h0, h1, h2, if_false, if_true] at h ⊢
          rcases rest with _ | ⟨b1, rest1⟩
          · simp at h
          · simpa [List.cons_append] using h
        · by_cases h3 : b < 240
          · simp only [h0, h1, h2, h3, if_false, if_true] at h ⊢
            rcases rest with _ | ⟨b1, _ | ⟨b2, rest2⟩⟩
            · simp at h
            · simp at h
            · simpa [List.cons_append] using h
          · by_cases h4 : b < 245
            · simp only [h0, h1, h2, h3, h4, if_false, if_true] at h ⊢
              rcases rest with _ | ⟨b1, _ | ⟨b2, _ | ⟨b3, rest3⟩⟩⟩
              · simp at h
              · simp at h
              · simp at h
              · simpa [List.cons_append] using h
            · simp [h0, h1, h2, h3, h4] at h

theorem utf8CharLen_of_append {a : List Nat} {k : Nat} {r : List Nat}
    (h : utf8CharLen (a ++ r) = some k) (hk : k ≤ a.length) :
    utf8CharLen a = some k := by
  match a with
  | [] =>
    have hb := utf8CharLen_bounds h
    simp at hk
    omega
  | b :: rest =>
    rw [List.cons_append] at h
    simp only [utf8CharLen] at h ⊢
    by_cases h0 : b < 128
    · simpa [h0] using h
    · by_cases h1 : b < 194
      · simp [h0, h1] at h
      · by_cases h2 : b < 224
        · simp only [h0, h1, h2, if_false, if_true] at h ⊢
          rcases rest with _ | ⟨b1, rest1⟩
          · simp only [List.nil_append] at h
            simp only [List.length_cons, List.length_nil] at hk
            rcases r with _ | ⟨c1, r1⟩
            · simp at h
            · simp at h ⊢
              omega
          · simpa [List.cons_append] using h
        · by_cases h3 : b < 240
          · simp only [h0, h1, h2, h3, if_false, if_true] at h ⊢
            rcases rest with _ | ⟨b1, _ | ⟨b2, rest2⟩⟩
            · simp only [List.nil_append] at h
              simp only [List.length_cons, List.length_nil] at hk
              rcases r with _ | ⟨c1, _ | ⟨c2, r2⟩⟩
              · simp at h
              · simp at h
              · simp at h ⊢
                omega
            · simp only [List.cons_append, List.nil_append] at h
              simp only [List.length_cons, List.length_nil] at hk
              rcases r with _ | ⟨c2, r2⟩
              · simp at h
              · simp at h ⊢
                omega
            · simpa [List.cons_append] using h
          · by_cases h4 : b < 245
            · simp only [h0, h1, h2, h3, h4, if_false, if_true] at h ⊢
              rcases rest with _ | ⟨b1, _ | ⟨b2, _ | ⟨b3, rest3⟩⟩⟩
              · simp only [List.nil_append] at h
                simp only [List.length_cons, List.length_nil] at hk
                rcases r with _ | ⟨c1, _ | ⟨c2, _ | ⟨c3, r3⟩⟩⟩
                · simp at h
                · simp at h
                · simp at h
                · simp at h ⊢
                  omega
              · simp only [List.cons_append, List.nil_append] at h
                simp only [List.length_cons, List.length_nil] at hk
                rcases r with _ | ⟨c2, _ | ⟨c3, r3⟩⟩
                · simp at h
                · simp at h
                · simp at h ⊢
                  omega
              · simp only [List.cons_append, List.nil_append] at h
                simp only [List.length_cons, List.length_nil] at hk
                rcases r with _ | ⟨c3, r3⟩
                · simp at h
                · simp at h ⊢
                  omega
              · simpa [List.cons_append] using h
            · simp [h0, h1, h2, h3, h4] at h

theorem utf8ValidUpToAux_congr :
    ∀ (f g : Nat) (l : List Nat), l.length ≤ f → l.length ≤ g →
      utf8ValidUpToAux f l = utf8ValidUpToAux g l := by
  intro f
  induction f with
  | zero =>
    intro g l hf _
    have : l = [] := List.length_eq_zero.mp (by omega)
    subst this
    cases g <;> simp [utf8ValidUpToAux, utf8CharLen]
  | succ f ih =>
    intro g l hf hg
    cases g with
    | zero =>
      have : l = [] := List.length_eq_zero.mp (by omega)
      subst this
      simp [utf8ValidUpToAux, utf8CharLen]
    | succ g =>
      simp only [utf8ValidUpToAux]
      cases hc : utf8CharLen l with
      | none => rfl
      | some k =>
        have hb := utf8CharLen_bounds hc
        have hlen : (l.drop k).length = l.length - k := List.length_drop k l
        show k + utf8ValidUpToAux f (l.drop k) = k + utf8ValidUpToAux g (l.drop k)
        rw [ih g (l.drop k) (by omega) (by omega)]

theorem utf8ValidUpTo_eq (l : List Nat) :
    utf8ValidUpTo l =
      match utf8CharLen l with
      | none => 0
      | some k => k + utf8ValidUpTo (l.drop k) := by
  unfold utf8ValidUpTo
  cases hl : l.length with
  | zero =>
    have : l = [] := List.length_eq_zero.mp hl
    subst this
    simp [utf8ValidUpToAux, utf8CharLen]
  | succ n =>
    simp only [utf8ValidUpToAux]
    cases hc : utf8CharLen l with
    | none => rfl
    | some k =>
      have hb := utf8CharLen_bounds hc
      have hlen : (l.drop k).length = l.length - k := List.length_drop k l
      show k + utf8ValidUpToAux n (l.drop k) =
        k + utf8ValidUpToAux (l.drop k).length (l.drop k)
      rw [utf8ValidUpToAux_congr n (l.drop k).length (l.drop k) (by omega)
        (by omega)]

theorem utf8ValidUpTo_le (l : List Nat) : utf8ValidUpTo l ≤ l.length := by
  have haux : ∀ (f : Nat) (m : List Nat), utf8ValidUpToAux f m ≤ m.length := by
    intro f
    induction f with
    | zero => intro m; simp [utf8ValidUpToAux]
    | succ f ih =>
      intro m
      simp only [utf8ValidUpToAux]
      cases hc : utf8CharLen m with
      | none => simp
      | some k =>
        have hb := utf8CharLen_bounds hc
        have := ih (m.drop k)
        have hlen : (m.drop k).length = m.length - k := List.length_drop k m
        show k + utf8ValidUpToAux f (m.drop k) ≤ m.length
        omega
  exact haux l.length l

theorem utf8ValidUpTo_nil : utf8ValidUpTo [] = 0 := rfl

/-- A nonempty proper initial part of a character encoding is not itself
the start of a complete character, so `utf8ValidUpTo` stops there. -/
theorem frag_charLen_none {p : List Nat} (hf : Frag p) (hne : p ≠ []) :
    utf8CharLen p = none := by
  rcases hf with rfl | ⟨s, hs, henc⟩
  · exact absurd rfl hne
  · cases hc : utf8CharLen p with
    | none => rfl
    | some k =>
      have h1 := utf8CharLen_append s hc
      rw [henc] at h1
      have hb := utf8CharLen_bounds hc
      have hs1 : 1 ≤ s.length := by
        cases s with
        | nil => exact absurd rfl hs
        | cons a t => simp
      have : k = p.length + s.length := by
        have := Option.some.inj h1
        simpa [List.length_append] using this.symm
      omega

theorem frag_validUpTo_zero {p : List Nat} (hf : Frag p) :
    utf8ValidUpTo p = 0 := by
  by_cases hne : p = []
  · subst hne
    rfl
  · rw [utf8ValidUpTo_eq, frag_charLen_none hf hne]

/-- `utf8ValidUpTo` on a list of whole characters followed by a fragment
stops exactly at the fragment. -/
theorem validUpTo_chain_frag :
    ∀ (cs : List (List Nat)) (p : List Nat),
      (∀ c ∈ cs, IsCharEnc c) → Frag p →
      utf8ValidUpTo (cs.flatten ++ p) = cs.flatten.length := by
  intro cs
  induction cs with
  | nil =>
    intro p _ hf
    simpa using frag_validUpTo_zero hf
  | cons c cs ih =>
    intro p hc hf
    have hcc : IsCharEnc c := hc c (by simp)
    have hflat : (c :: cs).flatten ++ p = c ++ (cs.flatten ++ p) := by
      simp
    have hlen : utf8CharLen (c ++ (cs.flatten ++ p)) = some c.length :=
      utf8CharLen_append _ hcc
    rw [hflat, utf8ValidUpTo_eq, hlen]
    show c.length + utf8ValidUpTo ((c ++ (cs.flatten ++ p)).drop c.length) =
      (c :: cs).flatten.length
    rw [List.drop_left, ih p (fun u hu => hc u (by simp [hu])) hf]
    simp

/-- A list that is entirely well-formed UTF-8 splits into whole character
encodings. -/
theorem chain_of_valid :
    ∀ (n : Nat) (l : List Nat), l.length ≤ n →
      utf8ValidUpTo l = l.length →
      ∃ cs : List (List Nat), (∀ c ∈ cs, IsCharEnc c) ∧ l = cs.flatten := by
  intro n
  induction n with
  | zero =>
    intro l hl _
    have hnil : l = [] := List.length_eq_zero.mp (by omega)
    exact ⟨[], by simp, by simp [hnil]⟩
  | succ n ih =>
    intro l hl hv
    cases hc : utf8CharLen l with
    | none =>
      have hz : (0 : Nat) = l.length := by
        rw [utf8ValidUpTo_eq, hc] at hv
        exact hv
      have hnil : l = [] := List.length_eq_zero.mp (by omega)
      exact ⟨[], by simp, by simp [hnil]⟩
    | some k =>
      have hv2 : k + utf8ValidUpTo (l.drop k) = l.length := by
        rw [utf8ValidUpTo_eq, hc] at hv
        exact hv
      have hb := utf8CharLen_bounds hc
      have hd := utf8ValidUpTo_le (l.drop k)
      have hlen : (l.drop k).length = l.length - k := List.length_drop k l
      have hv3 : utf8ValidUpTo (l.drop k) = (l.drop k).length := by omega
      obtain ⟨cs, hcs, heq⟩ := ih (l.drop k) (by omega) hv3
      have htd : l.take k ++ l.drop k = l := List.take_append_drop k l
      have hslen : (l.take k).length = k := List.length_take_of_le hb.2
      have hcl : utf8CharLen (l.take k) = some k :=
        utf8CharLen_of_append (by rw [htd]; exact hc) (by omega)
      refine ⟨l.take k :: cs, ?_, ?_⟩
      · intro u hu
        rcases List.mem_cons.mp hu with rfl | hu2
        · unfold IsCharEnc
          rw [hcl, hslen]
        · exact hcs u hu2
      · rw [List.flatten_cons, ← heq, htd]

/-- Any split of a character chain decomposes as whole characters plus a
fragment, with the fragment and the remainder still forming a chain. -/
theorem chain_split :
    ∀ (cs : List (List Nat)) (d rest : List Nat),
      (∀ c ∈ cs, IsCharEnc c) → d ++ rest = cs.flatten →
      ∃ (cs1 : List (List Nat)) (p : List Nat) (cs2 : List (List Nat)),
        (∀ c ∈ cs1, IsCharEnc c) ∧ Frag p ∧ (∀ c ∈ cs2, IsCharEnc c) ∧
        d = cs1.flatten ++ p ∧ p ++ rest = cs2.flatten := by
  intro cs
  induction cs with
  | nil =>
    intro d rest _ heq
    simp only [List.flatten_nil] at heq
    have hd := List.append_eq_nil.mp heq
    exact ⟨[], [], [], by simp, Or.inl rfl, by simp, by simp [hd.1],
      by simp [hd.1, hd.2]⟩
  | cons c cs ih =>
    intro d rest hc heq
    rw [List.flatten_cons] at heq
    rcases List.append_eq_append_iff.mp heq with ⟨a, hca, hrest⟩ | ⟨e, hde, he⟩
    · by_cases ha : a = []
      · subst ha
        have hdc : d = c := by simpa using hca.symm
        refine ⟨[c], [], cs, ?_, Or.inl rfl, fun u hu => hc u (by simp [hu]),
          by simp [hdc], by simpa using hrest⟩
        intro u hu
        simp only [List.mem_singleton] at hu
        subst hu
        exact hc _ (List.mem_cons_self _ _)
      · refine ⟨[], d, c :: cs, by simp, Or.inr ⟨a, ha, ?_⟩,
          hc, by simp, ?_⟩
        · rw [← hca]
          exact hc c (by simp)
        · rw [List.flatten_cons, ← heq]
    · obtain ⟨cs1, p, cs2, h1, h2, h3, h4, h5⟩ :=
        ih e rest (fun u hu => hc u (by simp [hu])) he.symm
      refine ⟨c :: cs1, p, cs2, ?_, h2, h3, ?_, h5⟩
      · intro u hu
        rcases List.mem_cons.mp hu with rfl | hu2
        · exact hc u (by simp)
        · exact h1 u hu2
      · rw [List.flatten_cons, hde, h4, List.append_assoc]

/-- One `get_weather` loop iteration, described through the chain
decomposition of its buffer: it pushes the whole characters and carries
the fragment. -/
theorem chunkStep_eq (carry acc ch : List Nat) (cs1 : List (List Nat))
    (p : List Nat) (h1 : ∀ c ∈ cs1, IsCharEnc c) (h2 : Frag p)
    (h4 : carry ++ ch = cs1.flatten ++ p) :
    chunkStep (carry, acc) ch = (p, acc ++ cs1.flatten) := by
  have hvv := validUpTo_chain_frag cs1 p h1 h2
  unfold chunkStep
  simp only [h4, hvv]
  by_cases hp : p = []
  · subst hp
    simp
  · have hlen : cs1.flatten.length ≠ (cs1.flatten ++ p).length := by
      have : 0 < p.length := List.length_pos.mpr hp
      simp only [List.length_append]
      omega
    simp [hlen, List.take_left, List.drop_left]

/-- The accumulation loop of `get_weather`, started on a carried fragment
whose completion together with the remaining chunks forms well-formed
UTF-8, accumulates exactly everything. -/
theorem foldl_chunkStep_eq (chunks : List (List Nat)) :
    ∀ (carry acc : List Nat) (cs : List (List Nat)),
      (∀ c ∈ cs, IsCharEnc c) → Frag carry →
      carry ++ chunks.flatten = cs.flatten →
      (chunks.foldl chunkStep (carry, acc)).2 =
        acc ++ carry ++ chunks.flatten := by
  induction chunks with
  | nil =>
    intro carry acc cs hc hf heq
    simp only [List.foldl_nil, List.flatten_nil, List.append_nil] at heq ⊢
    by_cases hne : carry = []
    · simp [hne]
    · exfalso
      have hnone := frag_charLen_none hf hne
      cases cs with
      | nil =>
        simp only [List.flatten_nil] at heq
        exact hne heq
      | cons c cs2 =>
        have hcc : IsCharEnc c := hc c (by simp)
        have hsome : utf8CharLen carry = some c.length := by
          rw [heq, List.flatten_cons]
          exact utf8CharLen_append cs2.flatten hcc
        rw [hnone] at hsome
        cases hsome
  | cons ch chs ih =>
    intro carry acc cs hc hf heq
    have hdata : (carry ++ ch) ++ chs.flatten = cs.flatten := by
      rw [List.append_assoc]
      simpa [List.flatten_cons] using heq
    obtain ⟨cs1, p, cs2, h1, h2, h3, h4, h5⟩ :=
      chain_split cs (carry ++ ch) chs.flatten hc hdata
    rw [List.foldl_cons, chunkStep_eq carry acc ch cs1 p h1 h2 h4,
      ih p (acc ++ cs1.flatten) cs2 h3 h2 h5]
    have h6 : carry ++ (ch ++ chs.flatten) = cs1.flatten ++ (p ++ chs.flatten) := by
      rw [← List.append_assoc, ← List.append_assoc, h4]
    calc acc ++ cs1.flatten ++ p ++ chs.flatten
        = acc ++ (cs1.flatten ++ (p ++ chs.flatten)) := by
          simp [List.append_assoc]
      _ = acc ++ (carry ++ (ch ++ chs.flatten)) := by rw [← h6]
      _ = acc ++ carry ++ (ch :: chs).flatten := by
          simp [List.flatten_cons, List.append_assoc]

/-- Claim C8: whenever the concatenation of the chunks read from the HTTP
response is well-formed UTF-8, the body accumulated by `get_weather`
equals the whole concatenated byte stream, even when chunk boundaries
split a multi-byte character: the undecoded remainder is carried and
prepended to the next read. -/
theorem get_weather_utf8_accumulation :
    ∀ chunks : List (List Nat),
      utf8ValidUpTo chunks.flatten = chunks.flatten.length →
      get_weather_body chunks = chunks.flatten := by
  intro chunks hv
  obtain ⟨cs, hcs, heq⟩ := chain_of_valid chunks.flatten.length chunks.flatten
    le_rfl hv
  unfold get_weather_body
  rw [foldl_chunkStep_eq chunks [] [] cs hcs (Or.inl rfl)
    (by simpa using heq)]
  simp

/-- Witness for `get_weather_utf8_accumulation`: the bytes of an ASCII
letter, a two-byte character split across the chunk boundary, and a
trailing ASCII byte are reassembled exactly. -/
theorem get_weather_utf8_accumulation_witness :
    utf8ValidUpTo [72, 195, 169, 33] = 4 ∧
    get_weather_body [[72, 195], [169, 33]] = [72, 195, 169, 33] := by
  refine ⟨by decide, ?_⟩
  have h := get_weather_utf8_accumulation [[72, 195], [169, 33]] (by decide)
  exact h.trans (by decide)

/-- Claim C9: `get_weather` returns the accumulated body exactly when the
HTTP status is in `200..=299`, and returns the error (propagated by `?`
out of `main`, aborting startup with no retry) for every other status. -/
theorem get_weather_status_spec :
    ∀ (status : Nat) (chunks : List (List Nat)),
      ((get_weather status chunks).isSome = true ↔
        (200 ≤ status ∧ status ≤ 299)) ∧
      (∀ body, get_weather status chunks = some body →
        body = get_weather_body chunks) := by
  intro status chunks
  constructor
  · unfold get_weather
    split_ifs with h <;> simp [h]
  · intro body hb
    unfold get_weather at hb
    split_ifs at hb with h
    exact (Option.some.inj hb).symm

/-- Witness for `get_weather_status_spec`: status 200 yields the body,
status 404 yields the error. -/
theorem get_weather_status_spec_witness :
    (get_weather 200 [[65]]).isSome = true ∧
    (get_weather 404 [[65]]).isSome = false := by
  constructor
  · exact (get_weather_status_spec 200 [[65]]).1.mpr (by omega)
  · have hno : ¬ (get_weather 404 [[65]]).isSome = true := fun hx => by
      have h2 := (get_weather_status_spec 404 [[65]]).1.mp hx
      omega
    simpa using hno
